import Mathlib

/-!
# Verification of the CS5180 faculty-search engine

A shallow embedding of the retrieval pipeline of the repository
(`searching.py`, `SearchEngine.py`, `IndexAndEmbeddingsGeneration.py`),
together with proofs settling the specification's claims about it.

Modelling conventions:
* Python floats (TF-IDF weights, similarity scores) are modelled as `Rat`.
  None of the verified properties depend on floating-point rounding; they
  concern ordering, membership and list structure only.
* The MongoDB collections are modelled as in-memory association lists
  passed explicitly: `find_one({"term": t})` becomes `List.find?` on the
  first component.  Python dictionaries (`defaultdict`) are association
  lists with insertion-ordered keys, mirroring CPython's ordered dicts.
* The sklearn vectorizer is external to the repository; it is abstracted
  as a structure with `transform` and a matching `inverse_transform`
  (exactly the two methods the repository calls).  Likewise
  `cosine_similarity` is passed as an abstract scoring function `sim`;
  the claims below never depend on its numeric values.
* Python's `sorted(results, key=..., reverse=True)` is a stable descending
  sort; it is modelled by `List.mergeSort` with the total preorder
  "greater-or-equal similarity", which is stable in the same sense.
-/

/-- A posting of the inverted index: `{"document_id": ..., "tfidf_score": ...}`. -/
structure Posting where
  document_id : String
  tfidf_score : Rat
deriving DecidableEq

/-- A search result record as built by `fetch_document_details`:
`{"document_id": ..., "similarity": ..., "url": ..., "summary": ...}`. -/
structure Result where
  document_id : String
  similarity : Rat
  url : String
  summary : String
deriving DecidableEq

/-- The `inverted_index_collection`: one record per term, holding the
term and its list of postings. -/
abbrev InvertedIndex := List (String × List Posting)

/-- The `embeddings_collection`: one record per document, holding the
document id and its dense TF-IDF vector. -/
abbrev EmbeddingStore := List (String × List Rat)

/-- The `faculty_collection` lookup used by `fetch_document_details`,
abstracted to the two fields the code reads: `profile_url` and `summary`. -/
abbrev FacultyStore := String → String × String

/-- The cumulative-score dictionary `candidate_docs : defaultdict(float)`,
as an insertion-ordered association list. -/
abbrev CandidateDocs := List (String × Rat)

/-- The fitted sklearn `TfidfVectorizer`, abstracted to the two methods the
repository calls on it. -/
structure Vectorizer where
  transform : String → List Rat
  inverse_transform : List Rat → List String

/-- `collection.find_one({"key": k})`: the first record whose key matches. -/
def findOne {β : Type} (coll : List (String × β)) (k : String) : Option (String × β) :=
  coll.find? (fun e => e.1 == k)

/-- `candidate_docs[doc_id] += score` on a `defaultdict(float)`: update the
existing entry, or append a fresh key at the end (CPython dict insertion order). -/
def addScore (cd : CandidateDocs) (doc_id : String) (score : Rat) : CandidateDocs :=
  if cd.any (fun e => e.1 == doc_id) then
    cd.map (fun e => if e.1 == doc_id then (e.1, e.2 + score) else e)
  else
    cd ++ [(doc_id, score)]

/-- The comparator realised by Python's
`sorted(results, key=lambda x: x['similarity'], reverse=True)`:
stable descending sort on the similarity field. -/
def bySimilarityDesc (a b : Result) : Bool :=
  b.similarity ≤ a.similarity

namespace Searching

/-- `process_query` of `searching.py`: TF-IDF vector of the query plus the
recognized query terms (`vectorizer.inverse_transform(query_vector)[0]`). -/
def process_query (vectorizer : Vectorizer) (query_sentence : String) :
    List Rat × List String :=
  let query_vector := vectorizer.transform query_sentence
  (query_vector, vectorizer.inverse_transform query_vector)

/-- `collect_candidate_documents` of `searching.py`: for each query term,
look the term up in the inverted index; if present, accumulate each
posting's score into the candidate dictionary. -/
def collect_candidate_documents (idx : InvertedIndex) (query_terms : List String) :
    CandidateDocs :=
  query_terms.foldl (fun candidate_docs term =>
    match findOne idx term with
    | some term_entry =>
        term_entry.2.foldl
          (fun cd doc => addScore cd doc.document_id doc.tfidf_score) candidate_docs
    | none => candidate_docs) []

/-- `fetch_document_details` of `searching.py`. -/
def fetch_document_details (faculty : FacultyStore) (doc_id : String)
    (similarity : Rat) : Result :=
  { document_id := doc_id
    similarity := similarity
    url := (faculty doc_id).1
    summary := (faculty doc_id).2 }

/-- `compute_similarity_scores` of `searching.py`: for each candidate in
dictionary order, fetch its embedding; if present, score it and append the
document details; if absent, the candidate is dropped.  (This variant does
not sort; `searchWithTFIDF` sorts.) -/
def compute_similarity_scores (sim : List Rat → List Rat → Rat)
    (faculty : FacultyStore) (emb : EmbeddingStore)
    (query_vector : List Rat) (candidate_docs : CandidateDocs) : List Result :=
  candidate_docs.foldl (fun results cand =>
    match findOne emb cand.1 with
    | some embedding_entry =>
        results ++ [fetch_document_details faculty cand.1 (sim query_vector embedding_entry.2)]
    | none => results) []

/-- `searchWithTFIDF` of `searching.py`: process the query, collect the
candidates, score them, and return them sorted by similarity descending
(Python's stable `sorted(..., reverse=True)`). -/
def searchWithTFIDF (sim : List Rat → List Rat → Rat) (faculty : FacultyStore)
    (idx : InvertedIndex) (emb : EmbeddingStore)
    (query_sentence : String) (vectorizer : Vectorizer) : List Result :=
  let pq := process_query vectorizer query_sentence
  let candidate_docs := collect_candidate_documents idx pq.2
  let results := compute_similarity_scores sim faculty emb pq.1 candidate_docs
  results.mergeSort bySimilarityDesc

/-- `paginate_results` of `searching.py`: the slice
`results[page*page_size : page*page_size + page_size]` and
`total_pages = (len(results) + page_size - 1) // page_size`. -/
def paginate_results {α : Type} (results : List α) (page : Nat)
    (page_size : Nat) : List α × Nat :=
  let start_idx := page * page_size
  let end_idx := start_idx + page_size
  ((results.drop start_idx).take (end_idx - start_idx),
   (results.length + page_size - 1) / page_size)

end Searching

namespace SearchEngine

/-- `process_query` of `SearchEngine.py` (textually identical to the
`searching.py` variant). -/
def process_query (vectorizer : Vectorizer) (query_sentence : String) :
    List Rat × List String :=
  let query_vector := vectorizer.transform query_sentence
  (query_vector, vectorizer.inverse_transform query_vector)

/-- `collect_candidate_documents` of `SearchEngine.py` (textually identical
to the `searching.py` variant, up to the collection it reads from). -/
def collect_candidate_documents (idx : InvertedIndex) (query_terms : List String) :
    CandidateDocs :=
  query_terms.foldl (fun candidate_docs term =>
    match findOne idx term with
    | some term_entry =>
        term_entry.2.foldl
          (fun cd doc => addScore cd doc.document_id doc.tfidf_score) candidate_docs
    | none => candidate_docs) []

/-- `fetch_document_details` of `SearchEngine.py`. -/
def fetch_document_details (faculty : FacultyStore) (doc_id : String)
    (similarity : Rat) : Result :=
  { document_id := doc_id
    similarity := similarity
    url := (faculty doc_id).1
    summary := (faculty doc_id).2 }

/-- `compute_similarity_scores` of `SearchEngine.py`: same accumulation as
the `searching.py` variant, but this variant sorts its own output
(`return sorted(results, key=..., reverse=True)`). -/
def compute_similarity_scores (sim : List Rat → List Rat → Rat)
    (faculty : FacultyStore) (emb : EmbeddingStore)
    (query_vector : List Rat) (candidate_docs : CandidateDocs) : List Result :=
  (candidate_docs.foldl (fun results cand =>
    match findOne emb cand.1 with
    | some embedding_entry =>
        results ++ [fetch_document_details faculty cand.1 (sim query_vector embedding_entry.2)]
    | none => results) []).mergeSort bySimilarityDesc

/-- `searchWithTFIDF` of `SearchEngine.py`: returns
`compute_similarity_scores(...)` directly (which already sorted). -/
def searchWithTFIDF (sim : List Rat → List Rat → Rat) (faculty : FacultyStore)
    (idx : InvertedIndex) (emb : EmbeddingStore)
    (query_sentence : String) (vectorizer : Vectorizer) : List Result :=
  let pq := process_query vectorizer query_sentence
  let candidate_docs := collect_candidate_documents idx pq.2
  compute_similarity_scores sim faculty emb pq.1 candidate_docs

/-- `paginate_results` of `SearchEngine.py` (same body as the
`searching.py` variant, written on one return line in the source). -/
def paginate_results {α : Type} (results : List α) (page : Nat)
    (page_size : Nat) : List α × Nat :=
  let start_idx := page * page_size
  let end_idx := start_idx + page_size
  ((results.drop start_idx).take (end_idx - start_idx),
   (results.length + page_size - 1) / page_size)

end SearchEngine

namespace IndexGen

/-- `inverted_index[term].append(posting)` on a `defaultdict(list)`:
append to the entry holding the key, or create the key at the end
(CPython dict insertion order). -/
def dappend : InvertedIndex → String → Posting → InvertedIndex
  | [], term, p => [(term, [p])]
  | e :: rest, term, p =>
      if e.1 == term then (e.1, e.2 ++ [p]) :: rest
      else e :: dappend rest term p

/-- The body of the inner loop of `build_inverted_index`:
`score = tfidf_matrix[doc_idx, term_idx]; if score > 0:
inverted_index[term].append({"document_id": doc_ids[doc_idx],
"tfidf_score": score})`. -/
def buildStepDoc (tfidf_matrix : List (List Rat)) (doc_ids : List String)
    (term_idx : Nat) (term : String) (idx : InvertedIndex) (doc_idx : Nat) :
    InvertedIndex :=
  let score := (tfidf_matrix.getD doc_idx []).getD term_idx 0
  if 0 < score then
    dappend idx term
      { document_id := doc_ids.getD doc_idx "", tfidf_score := score }
  else idx

/-- The body of the outer loop of `build_inverted_index`: for one
`(term_idx, term)` pair, iterate `doc_idx in range(tfidf_matrix.shape[0])`. -/
def buildStepTerm (tfidf_matrix : List (List Rat)) (doc_ids : List String)
    (idx : InvertedIndex) (te : Nat × String) : InvertedIndex :=
  (List.range tfidf_matrix.length).foldl
    (buildStepDoc tfidf_matrix doc_ids te.1 te.2) idx

/-- `build_inverted_index` of `IndexAndEmbeddingsGeneration.py`:
`for term_idx, term in enumerate(terms): for doc_idx in range(shape[0]):
if matrix[doc_idx, term_idx] > 0: append posting`.  The sparse matrix is
modelled as a list of rows (one per document). -/
def build_inverted_index (tfidf_matrix : List (List Rat)) (terms : List String)
    (doc_ids : List String) : InvertedIndex :=
  terms.enum.foldl (buildStepTerm tfidf_matrix doc_ids) []

/-- `store_document_embeddings` of `IndexAndEmbeddingsGeneration.py`:
one record `{"document_id": doc_id, "tfidf": row}` per entry of `doc_ids`,
in order. -/
def store_document_embeddings (tfidf_matrix : List (List Rat))
    (doc_ids : List String) : EmbeddingStore :=
  doc_ids.enum.map (fun de => (de.2, tfidf_matrix.getD de.1 []))

/-- The build-time failure modes named by the specification. -/
inductive TrainError where
  | emptyCorpus
  | emptyVocabulary
deriving DecidableEq

/-- A trained vectorization model: the frozen vocabulary (the part of the
model the claims mention). -/
structure Model where
  vocabulary : List String
deriving DecidableEq

/-- Modelled from the spec: the `train` operation of the Vectorization
Model (§4.1).  Its implementation lives inside the external sklearn
`TfidfVectorizer` that `create_tfidf_matrix` delegates to, not in the
repository's own sources, so it is modelled from the specification's
words: training fails with `EmptyCorpusError` on zero documents, and with
`EmptyVocabularyError` when stop-word filtering removes every term;
otherwise it produces a model whose vocabulary is the surviving terms.
Documents are token lists (tokenization is external, §1). -/
def train (stop_words : List String) (documents : List (List String)) :
    Except TrainError Model :=
  if documents.isEmpty then
    .error .emptyCorpus
  else
    let vocabulary :=
      ((documents.map (fun d => d.filter (fun t => ¬ t ∈ stop_words))).flatten).dedup
    if vocabulary.isEmpty then
      .error .emptyVocabulary
    else
      .ok { vocabulary := vocabulary }

end IndexGen

/-- The postings list of a term as read back from the index: the
`documents` field of `find_one({"term": t})`, or the empty list when the
term is unknown (`find_one` returns `None`; on the build side, a
`defaultdict(list)` lookup of a missing key likewise yields `[]`). -/
def postingsOf (idx : InvertedIndex) (term : String) : List Posting :=
  match findOne idx term with
  | some e => e.2
  | none => []

/-- The ordering the specification claims for search output: descending by
similarity, ties broken by document identifier ascending. -/
def specTieBreakOrder (a b : Result) : Prop :=
  b.similarity < a.similarity ∨
    (a.similarity = b.similarity ∧ a.document_id ≤ b.document_id)

/-! ### Concrete instances used by witnesses and counterexamples -/

/-- A similarity function that scores every pair alike (a cosine tie). -/
def simConst : List Rat → List Rat → Rat := fun _ _ => 1

/-- A faculty store with fixed display metadata. -/
def facultyC : FacultyStore := fun _ => ("u", "s")

/-- An index with one term whose postings hold document `"b"` before
document `"a"` (matrix document order, not identifier order). -/
def idxC : InvertedIndex :=
  [("t", [{ document_id := "b", tfidf_score := 1 },
          { document_id := "a", tfidf_score := 1 }])]

/-- Embeddings for both documents of `idxC`. -/
def embC : EmbeddingStore := [("b", [1]), ("a", [1])]

/-- A vectorizer that recognizes the single term `"t"` in any query. -/
def vecC : Vectorizer :=
  { transform := fun _ => [1], inverse_transform := fun _ => ["t"] }

/-- A vectorizer for which every query is empty after normalization: no
recognized, in-vocabulary terms remain. -/
def vecOOV : Vectorizer :=
  { transform := fun _ => [0], inverse_transform := fun _ => [] }

/-! ## Pagination lemmas -/

theorem total_pages_eq_ceil (a b : Nat) (hb : 0 < b) :
    (((a + b - 1) / b : Nat) : ℤ) = ⌈(a : ℚ) / (b : ℚ)⌉ := by
  rcases Nat.eq_zero_or_pos a with ha | ha
  · subst ha
    rw [Nat.zero_add, Nat.div_eq_of_lt (by omega)]
    simp
  · have hbq : (0 : ℚ) < (b : ℚ) := by exact_mod_cast hb
    have hdiv : (a + b - 1) / b = (a - 1) / b + 1 := by
      have hkey : a + b - 1 = (a - 1) + b := by omega
      rw [hkey, Nat.add_div_right _ hb]
    have hdm := Nat.div_add_mod (a - 1) b
    have hm : (a - 1) % b < b := Nat.mod_lt _ hb
    set d := (a - 1) / b with hd
    obtain ⟨k, hk⟩ : ∃ k, b * d = k := ⟨_, rfl⟩
    rw [hk] at hdm
    have h1 : d * b < a := by rw [Nat.mul_comm, hk]; omega
    have h2 : a ≤ (d + 1) * b := by
      rw [Nat.add_mul, Nat.one_mul, Nat.mul_comm, hk]; omega
    rw [hdiv]
    symm
    rw [Int.ceil_eq_iff]
    refine ⟨?_, ?_⟩
    · have hlt : ((d : ℚ)) < (a : ℚ) / (b : ℚ) := by
        rw [lt_div_iff₀ hbq]; exact_mod_cast h1
      push_cast
      linarith
    · rw [div_le_iff₀ hbq]
      exact_mod_cast h2

theorem length_le_total_pages_mul (a b : Nat) (hb : 0 < b) :
    a ≤ ((a + b - 1) / b) * b := by
  rcases Nat.eq_zero_or_pos a with ha | ha
  · exact ha ▸ Nat.zero_le _
  · have hdiv : (a + b - 1) / b = (a - 1) / b + 1 := by
      have hkey : a + b - 1 = (a - 1) + b := by omega
      rw [hkey, Nat.add_div_right _ hb]
    have hdm := Nat.div_add_mod (a - 1) b
    have hm : (a - 1) % b < b := Nat.mod_lt _ hb
    rw [hdiv, Nat.add_mul, Nat.one_mul]
    obtain ⟨k, hk⟩ : ∃ k, b * ((a - 1) / b) = k := ⟨_, rfl⟩
    rw [hk] at hdm
    rw [Nat.mul_comm, hk]
    omega

theorem window_length_sum (ps n k : Nat) :
    ((List.range k).map (fun p => min ps (n - p * ps))).sum = min (k * ps) n := by
  induction k with
  | zero => simp
  | succ k ih =>
      rw [List.range_succ, List.map_append, List.sum_append, ih]
      simp only [List.map_cons, List.map_nil, List.sum_cons, List.sum_nil]
      have hmul : (k + 1) * ps = k * ps + ps := by rw [Nat.add_mul, Nat.one_mul]
      rw [hmul]
      omega

/-- **C2.**  For every result list, non-negative page index and positive
`page_size`, `paginate_results` returns `total_pages = ⌈len / page_size⌉`
(0 for the empty list), the window `results[page*page_size :
(page+1)*page_size]`, an empty window (without error) for a page at or
beyond `total_pages`, and in particular paginating 7 results with
`page = 1`, `page_size = 5` yields the window `[r6, r7]` with 2 pages. -/
theorem claim_C2_paginate_results {α : Type} (results : List α) (page page_size : Nat)
    (hps : 0 < page_size) :
    ((Searching.paginate_results results page page_size).2 : ℤ)
        = ⌈(results.length : ℚ) / (page_size : ℚ)⌉
    ∧ (Searching.paginate_results results page page_size).1
        = (results.take ((page + 1) * page_size)).drop (page * page_size)
    ∧ ((Searching.paginate_results results page page_size).2 ≤ page →
        (Searching.paginate_results results page page_size).1 = [])
    ∧ Searching.paginate_results [1, 2, 3, 4, 5, 6, 7] 1 5 = ([6, 7], 2) := by
  refine ⟨total_pages_eq_ceil results.length page_size hps, ?_, ?_, by decide⟩
  · simp only [Searching.paginate_results]
    rw [List.drop_take]
    congr 1
    · rw [Nat.add_sub_cancel_left]
      rw [Nat.add_mul, Nat.one_mul, Nat.add_sub_cancel_left]
  · intro hpage
    simp only [Searching.paginate_results] at hpage ⊢
    have h1 : results.length ≤ page * page_size := by
      calc results.length
          ≤ ((results.length + page_size - 1) / page_size) * page_size :=
            length_le_total_pages_mul _ _ hps
        _ ≤ page * page_size := Nat.mul_le_mul_right _ hpage
    rw [List.drop_eq_nil_of_le h1, List.take_nil]

/-- **C2** witness: the theorem applied at the concrete scenario
`results = [r1..r7]`, `page = 1`, `page_size = 5`. -/
theorem claim_C2_paginate_results_witness :
    (0 < 5)
    ∧ (((Searching.paginate_results [1, 2, 3, 4, 5, 6, 7] 1 5).2 : ℤ)
          = ⌈(([1, 2, 3, 4, 5, 6, 7] : List Nat).length : ℚ) / ((5 : Nat) : ℚ)⌉
        ∧ (Searching.paginate_results [1, 2, 3, 4, 5, 6, 7] 1 5).1
          = (([1, 2, 3, 4, 5, 6, 7] : List Nat).take ((1 + 1) * 5)).drop (1 * 5)
        ∧ ((Searching.paginate_results [1, 2, 3, 4, 5, 6, 7] 1 5).2 ≤ 1 →
            (Searching.paginate_results [1, 2, 3, 4, 5, 6, 7] 1 5).1 = [])
        ∧ Searching.paginate_results [1, 2, 3, 4, 5, 6, 7] 1 5 = ([6, 7], 2)) :=
  ⟨by decide, claim_C2_paginate_results [1, 2, 3, 4, 5, 6, 7] 1 5 (by decide)⟩

/-- **C9.**  `paginate_results` is idempotent (the same page request yields
the identical window both times), and the windows over pages
`0 .. total_pages - 1` partition the result list: their lengths sum to
`len(results)`. -/
theorem claim_C9_paginate_partition {α : Type} (results : List α) (page page_size : Nat)
    (hps : 0 < page_size) :
    Searching.paginate_results results page page_size
        = Searching.paginate_results results page page_size
    ∧ ((List.range (Searching.paginate_results results page page_size).2).map
          (fun p => (Searching.paginate_results results p page_size).1.length)).sum
        = results.length := by
  refine ⟨rfl, ?_⟩
  simp only [Searching.paginate_results, Nat.add_sub_cancel_left, List.length_take,
    List.length_drop]
  rw [window_length_sum]
  have h1 := length_le_total_pages_mul results.length page_size hps
  omega

/-- **C9** witness: the theorem applied to 7 results with page size 5. -/
theorem claim_C9_paginate_partition_witness :
    (0 < 5)
    ∧ (Searching.paginate_results [1, 2, 3, 4, 5, 6, 7] 0 5
          = Searching.paginate_results [1, 2, 3, 4, 5, 6, 7] 0 5
        ∧ ((List.range (Searching.paginate_results [1, 2, 3, 4, 5, 6, 7] 0 5).2).map
              (fun p => (Searching.paginate_results [1, 2, 3, 4, 5, 6, 7] p 5).1.length)).sum
          = ([1, 2, 3, 4, 5, 6, 7] : List Nat).length) :=
  ⟨by decide, claim_C9_paginate_partition [1, 2, 3, 4, 5, 6, 7] 0 5 (by decide)⟩

/-- **C10.**  The duplicated query pipelines are extensionally equal: with
identical inverted-index and embedding-store contents, `searchWithTFIDF`
of `SearchEngine.py` and of `searching.py` return the same ordered result
sequence for every query and vectorizer, and their `paginate_results`
functions agree on every input. -/
theorem claim_C10_duplicate_pipelines_agree :
    (∀ (sim : List Rat → List Rat → Rat) (faculty : FacultyStore)
        (idx : InvertedIndex) (emb : EmbeddingStore)
        (query_sentence : String) (vectorizer : Vectorizer),
      Searching.searchWithTFIDF sim faculty idx emb query_sentence vectorizer
        = SearchEngine.searchWithTFIDF sim faculty idx emb query_sentence vectorizer)
    ∧ (∀ (results : List Result) (page page_size : Nat),
        Searching.paginate_results results page page_size
          = SearchEngine.paginate_results results page page_size) :=
  ⟨fun _ _ _ _ _ _ => rfl, fun _ _ _ => rfl⟩

/-! ## Scoring lemmas -/

theorem compute_foldl_eq_append (sim : List Rat → List Rat → Rat)
    (faculty : FacultyStore) (emb : EmbeddingStore) (qv : List Rat)
    (cd : CandidateDocs) (acc : List Result) :
    cd.foldl (fun results cand =>
      match findOne emb cand.1 with
      | some embedding_entry =>
          results ++ [Searching.fetch_document_details faculty cand.1
            (sim qv embedding_entry.2)]
      | none => results) acc
    = acc ++ cd.filterMap (fun cand =>
        (findOne emb cand.1).map (fun e =>
          Searching.fetch_document_details faculty cand.1 (sim qv e.2))) := by
  induction cd generalizing acc with
  | nil => simp
  | cons hd tl ih =>
      simp only [List.foldl_cons, List.filterMap_cons]
      cases hfind : findOne emb hd.1 with
      | none => simpa using ih acc
      | some e => simp [ih, List.append_assoc]

theorem compute_similarity_scores_eq (sim : List Rat → List Rat → Rat)
    (faculty : FacultyStore) (emb : EmbeddingStore) (qv : List Rat)
    (cd : CandidateDocs) :
    Searching.compute_similarity_scores sim faculty emb qv cd
      = cd.filterMap (fun cand =>
          (findOne emb cand.1).map (fun e =>
            Searching.fetch_document_details faculty cand.1 (sim qv e.2))) := by
  have h := compute_foldl_eq_append sim faculty emb qv cd []
  simpa [Searching.compute_similarity_scores] using h

theorem collect_nil_of_no_postings (idx : InvertedIndex) (query_terms : List String)
    (h : ∀ t ∈ query_terms, findOne idx t = none) :
    Searching.collect_candidate_documents idx query_terms = [] := by
  unfold Searching.collect_candidate_documents
  induction query_terms with
  | nil => rfl
  | cons hd tl ih =>
      rw [List.foldl_cons, h hd (List.mem_cons_self hd tl)]
      exact ih (fun t ht => h t (List.mem_cons_of_mem hd ht))

/-- **C6.**  A candidate whose document id is absent from the embedding
store is dropped (every returned result has an embedding entry); a
candidate set whose members all lack embeddings yields `[]`; and a query
none of whose recognized terms has postings makes the whole search return
`[]` — all without error. -/
theorem claim_C6_missing_embeddings_dropped
    (sim : List Rat → List Rat → Rat) (faculty : FacultyStore)
    (idx : InvertedIndex) (emb : EmbeddingStore) (query_vector : List Rat)
    (candidate_docs : CandidateDocs) (query_sentence : String)
    (vectorizer : Vectorizer) :
    (∀ r ∈ Searching.compute_similarity_scores sim faculty emb query_vector candidate_docs,
        (findOne emb r.document_id).isSome)
    ∧ ((∀ cand ∈ candidate_docs, findOne emb cand.1 = none) →
        Searching.compute_similarity_scores sim faculty emb query_vector candidate_docs = [])
    ∧ ((∀ t ∈ (Searching.process_query vectorizer query_sentence).2, findOne idx t = none) →
        Searching.searchWithTFIDF sim faculty idx emb query_sentence vectorizer = []) := by
  refine ⟨?_, ?_, ?_⟩
  · intro r hr
    rw [compute_similarity_scores_eq] at hr
    obtain ⟨cand, hcand, hmap⟩ := List.mem_filterMap.mp hr
    cases hfind : findOne emb cand.1 with
    | none => rw [hfind] at hmap; simp at hmap
    | some e =>
        rw [hfind] at hmap
        simp only [Option.map_some'] at hmap
        obtain rfl := Option.some.inj hmap
        simpa [Searching.fetch_document_details] using congrArg Option.isSome hfind
  · intro hnone
    rw [compute_similarity_scores_eq]
    rw [List.filterMap_eq_nil_iff]
    intro cand hcand
    rw [hnone cand hcand]
    rfl
  · intro hterms
    simp only [Searching.searchWithTFIDF]
    rw [collect_nil_of_no_postings idx _ hterms, compute_similarity_scores_eq]
    simp [List.mergeSort_nil]

/-- **C6** witness: the theorem applied at concrete inputs — a result with
a stored embedding, a candidate set with no embeddings, and a query whose
term has no postings. -/
theorem claim_C6_missing_embeddings_dropped_witness :
    ((Searching.fetch_document_details facultyC "b" (simConst [1] [1]))
        ∈ Searching.compute_similarity_scores simConst facultyC embC [1] [("b", 1)]
      ∧ (findOne embC (Searching.fetch_document_details facultyC "b"
          (simConst [1] [1])).document_id).isSome)
    ∧ ((∀ cand ∈ ([("z", (1 : Rat))] : CandidateDocs), findOne ([] : EmbeddingStore) cand.1 = none)
      ∧ Searching.compute_similarity_scores simConst facultyC [] [1] [("z", 1)] = [])
    ∧ ((∀ t ∈ (Searching.process_query vecC "q").2, findOne ([] : InvertedIndex) t = none)
      ∧ Searching.searchWithTFIDF simConst facultyC [] embC "q" vecC = []) := by
  refine ⟨⟨by decide, ?_⟩, ⟨by decide, ?_⟩, ⟨by decide, ?_⟩⟩
  · exact (claim_C6_missing_embeddings_dropped simConst facultyC idxC embC [1]
      [("b", 1)] "q" vecC).1 _ (by decide)
  · exact (claim_C6_missing_embeddings_dropped simConst facultyC idxC [] [1]
      [("z", 1)] "q" vecC).2.1 (by decide)
  · exact (claim_C6_missing_embeddings_dropped simConst facultyC [] embC [1]
      [("z", 1)] "q" vecC).2.2 (by decide)

/-- **C8** counterexample: on a query that is empty after normalization
(no recognized terms remain) the code signals no error at all —
`searchWithTFIDF`, whose body has no raise path, evaluates to the
ordinary value `[]` — so `EmptyQueryError` is not signalled (and the
result is not the list of all documents either). -/
theorem claim_C8_counterexample :
    Searching.searchWithTFIDF simConst facultyC idxC embC "zzz" vecOOV = [] := by
  simp only [Searching.searchWithTFIDF]
  rw [show (Searching.process_query vecOOV "zzz").2 = [] from rfl]
  rw [show Searching.collect_candidate_documents idxC [] = [] from rfl,
    compute_similarity_scores_eq]
  simp [List.mergeSort_nil]

/-- **C8** (amended).  For every raw query that is empty after
normalization (the vectorizer recognizes no in-vocabulary terms), the
search pipeline silently returns the empty result sequence — never the
full document list, never a crash, and no `EmptyQueryError` exists in the
code to be signalled. -/
theorem claim_C8_empty_query_empty_result
    (sim : List Rat → List Rat → Rat) (faculty : FacultyStore)
    (idx : InvertedIndex) (emb : EmbeddingStore)
    (query_sentence : String) (vectorizer : Vectorizer)
    (hempty : (Searching.process_query vectorizer query_sentence).2 = []) :
    Searching.searchWithTFIDF sim faculty idx emb query_sentence vectorizer = [] := by
  simp only [Searching.searchWithTFIDF]
  rw [hempty]
  rw [show ∀ i : InvertedIndex, Searching.collect_candidate_documents i [] = []
    from fun _ => rfl, compute_similarity_scores_eq]
  simp [List.mergeSort_nil]

/-- **C8** witness: the amended theorem applied to an out-of-vocabulary
query under the vectorizer `vecOOV`. -/
theorem claim_C8_empty_query_empty_result_witness :
    (Searching.process_query vecOOV "zzz").2 = []
    ∧ Searching.searchWithTFIDF simConst facultyC idxC embC "zzz" vecOOV = [] :=
  ⟨rfl, claim_C8_empty_query_empty_result simConst facultyC idxC embC "zzz" vecOOV rfl⟩

/-! ## Candidate-generation lemmas -/

theorem mem_keys_addScore (cd : CandidateDocs) (doc_id : String) (score : Rat)
    (x : String) :
    x ∈ (addScore cd doc_id score).map Prod.fst ↔ x ∈ cd.map Prod.fst ∨ x = doc_id := by
  unfold addScore
  by_cases h : cd.any (fun e => e.1 == doc_id) = true
  · obtain ⟨e, he, hbeq⟩ := List.any_eq_true.mp h
    have heq : e.1 = doc_id := by simpa using hbeq
    have hmem : doc_id ∈ cd.map Prod.fst := heq ▸ List.mem_map_of_mem Prod.fst he
    have hupd : (cd.map (fun e => if e.1 == doc_id then (e.1, e.2 + score) else e)).map
        Prod.fst = cd.map Prod.fst := by
      rw [List.map_map]
      apply List.map_congr_left
      intro a _
      by_cases ha : a.1 = doc_id <;> simp [ha]
    rw [if_pos h, hupd]
    constructor
    · exact Or.inl
    · rintro (hx | rfl)
      · exact hx
      · exact hmem
  · rw [if_neg h, List.map_append]
    simp

theorem mem_keys_foldPostings (ps : List Posting) (cd : CandidateDocs) (x : String) :
    x ∈ (ps.foldl (fun cd doc => addScore cd doc.document_id doc.tfidf_score) cd).map
        Prod.fst
      ↔ x ∈ cd.map Prod.fst ∨ x ∈ ps.map Posting.document_id := by
  induction ps generalizing cd with
  | nil => simp
  | cons hd tl ih =>
      simp only [List.foldl_cons, List.map_cons, List.mem_cons]
      rw [ih, mem_keys_addScore]
      tauto

theorem mem_keys_collect_aux (idx : InvertedIndex) (terms : List String)
    (cd : CandidateDocs) (x : String) :
    x ∈ (terms.foldl (fun candidate_docs term =>
          match findOne idx term with
          | some term_entry => term_entry.2.foldl
              (fun cd doc => addScore cd doc.document_id doc.tfidf_score) candidate_docs
          | none => candidate_docs) cd).map Prod.fst
      ↔ x ∈ cd.map Prod.fst
        ∨ ∃ t ∈ terms, x ∈ (postingsOf idx t).map Posting.document_id := by
  induction terms generalizing cd with
  | nil => simp
  | cons hd tl ih =>
      simp only [List.foldl_cons]
      cases hfind : findOne idx hd with
      | none =>
          rw [ih]
          have hpost : postingsOf idx hd = [] := by simp [postingsOf, hfind]
          simp only [List.exists_mem_cons_iff, hpost, List.map_nil,
            List.not_mem_nil, false_or]
      | some e =>
          rw [ih, mem_keys_foldPostings]
          have hpost : postingsOf idx hd = e.2 := by simp [postingsOf, hfind]
          simp only [List.exists_mem_cons_iff, hpost]
          tauto

/-- **C3.**  A document is a candidate produced before scoring if and only
if at least one recognized query term has a posting for it: the candidate
set is exactly the union of the postings lists of the query terms. -/
theorem claim_C3_candidate_union (idx : InvertedIndex) (query_terms : List String)
    (doc_id : String) :
    doc_id ∈ (Searching.collect_candidate_documents idx query_terms).map Prod.fst
      ↔ ∃ t ∈ query_terms, doc_id ∈ (postingsOf idx t).map Posting.document_id := by
  unfold Searching.collect_candidate_documents
  rw [mem_keys_collect_aux]
  simp

/-! ## Ranking order -/

theorem bySimilarityDesc_trans (a b c : Result) :
    bySimilarityDesc a b → bySimilarityDesc b c → bySimilarityDesc a c := by
  simp only [bySimilarityDesc, decide_eq_true_eq]
  exact fun hab hbc => le_trans hbc hab

theorem bySimilarityDesc_total (a b : Result) :
    bySimilarityDesc a b || bySimilarityDesc b a := by
  simp only [bySimilarityDesc, Bool.or_eq_true, decide_eq_true_eq]
  exact le_total b.similarity a.similarity

/-- **C1** counterexample: an index whose single term lists document `"b"`
before `"a"` (matrix document order) with a similarity tie.  The claimed
tie-break by ascending document identifier would output `"a"` before
`"b"`, but Python's stable sort keeps the candidate-collection order and
the code returns `"b"` first, violating `specTieBreakOrder`. -/
theorem claim_C1_counterexample :
    Searching.searchWithTFIDF simConst facultyC idxC embC "q" vecC
      = [{ document_id := "b", similarity := 1, url := "u", summary := "s" },
         { document_id := "a", similarity := 1, url := "u", summary := "s" }]
    ∧ ¬ List.Pairwise specTieBreakOrder
        (Searching.searchWithTFIDF simConst facultyC idxC embC "q" vecC) := by
  have hraw : Searching.compute_similarity_scores simConst facultyC embC
      (Searching.process_query vecC "q").1
      (Searching.collect_candidate_documents idxC (Searching.process_query vecC "q").2)
      = [{ document_id := "b", similarity := 1, url := "u", summary := "s" },
         { document_id := "a", similarity := 1, url := "u", summary := "s" }] := by
    decide
  have hsorted : List.Pairwise (fun a b : Result => bySimilarityDesc a b)
      [{ document_id := "b", similarity := 1, url := "u", summary := "s" },
       { document_id := "a", similarity := 1, url := "u", summary := "s" }] := by
    decide
  have hout : Searching.searchWithTFIDF simConst facultyC idxC embC "q" vecC
      = [{ document_id := "b", similarity := 1, url := "u", summary := "s" },
         { document_id := "a", similarity := 1, url := "u", summary := "s" }] := by
    simp only [Searching.searchWithTFIDF]
    rw [hraw]
    exact List.mergeSort_of_sorted hsorted
  refine ⟨hout, ?_⟩
  rw [hout]
  intro hpw
  have hrel := (List.pairwise_cons.mp hpw).1 _ (List.mem_cons_self _ _)
  simp only [specTieBreakOrder] at hrel
  rcases hrel with h | ⟨-, h⟩
  · exact lt_irrefl _ h
  · rw [String.le_iff_toList_le] at h
    revert h
    decide

/-- **C1** (amended).  The search output is sorted descending by
similarity and is a permutation of the scored candidate results; because
the sort is stable, equal-similarity ties keep the candidate-collection
order (which is deterministic for fixed index and store contents) rather
than being re-broken by ascending document identifier. -/
theorem claim_C1_sorted_by_similarity (sim : List Rat → List Rat → Rat)
    (faculty : FacultyStore) (idx : InvertedIndex) (emb : EmbeddingStore)
    (query_sentence : String) (vectorizer : Vectorizer) :
    List.Pairwise (fun a b : Result => b.similarity ≤ a.similarity)
        (Searching.searchWithTFIDF sim faculty idx emb query_sentence vectorizer)
    ∧ (Searching.searchWithTFIDF sim faculty idx emb query_sentence vectorizer).Perm
        (Searching.compute_similarity_scores sim faculty emb
          (Searching.process_query vectorizer query_sentence).1
          (Searching.collect_candidate_documents idx
            (Searching.process_query vectorizer query_sentence).2)) := by
  constructor
  · have h := List.sorted_mergeSort bySimilarityDesc_trans bySimilarityDesc_total
      (Searching.compute_similarity_scores sim faculty emb
        (Searching.process_query vectorizer query_sentence).1
        (Searching.collect_candidate_documents idx
          (Searching.process_query vectorizer query_sentence).2))
    exact h.imp (fun hab => by simpa [bySimilarityDesc] using hab)
  · exact List.mergeSort_perm _ bySimilarityDesc

/-! ## Training failure modes -/

/-- **C7.**  Training signals `EmptyCorpusError` on zero documents and
`EmptyVocabularyError` when stop-word filtering removes every term of
every document; in both cases no model is produced. -/
theorem claim_C7_train_errors (stop_words : List String)
    (documents : List (List String)) :
    IndexGen.train stop_words [] = Except.error IndexGen.TrainError.emptyCorpus
    ∧ (documents ≠ [] →
        (∀ d ∈ documents, ∀ t ∈ d, t ∈ stop_words) →
        IndexGen.train stop_words documents
          = Except.error IndexGen.TrainError.emptyVocabulary)
    ∧ (∀ err, IndexGen.train stop_words documents = Except.error err →
        ∀ model, IndexGen.train stop_words documents ≠ Except.ok model) := by
  refine ⟨rfl, ?_, ?_⟩
  · intro hne hall
    unfold IndexGen.train
    rw [if_neg (by simpa [List.isEmpty_iff] using hne)]
    have hvoc : (documents.map (fun d => d.filter (fun t => ¬ t ∈ stop_words))).flatten
        = [] := by
      rw [List.flatten_eq_nil_iff]
      intro l hl
      obtain ⟨d, hd, rfl⟩ := List.mem_map.mp hl
      rw [List.filter_eq_nil_iff]
      intro t ht
      simpa using hall d hd t ht
    have hcond : ((documents.map (fun d =>
        d.filter (fun t => ¬ t ∈ stop_words))).flatten).dedup.isEmpty = true := by
      rw [hvoc]; rfl
    rw [if_pos hcond]
  · intro err herr model hok
    rw [herr] at hok
    exact Except.noConfusion hok

/-- **C7** witness: the theorem applied to the all-stopword corpus
`[["the"]]` with stop-word list `["the"]`. -/
theorem claim_C7_train_errors_witness :
    ([["the"]] ≠ ([] : List (List String)))
    ∧ IndexGen.train ["the"] [["the"]]
        = Except.error IndexGen.TrainError.emptyVocabulary :=
  ⟨by decide, (claim_C7_train_errors ["the"] [["the"]]).2.1 (by decide) (by decide)⟩

/-! ## Inverted-index construction lemmas -/

theorem postingsOf_cons (e : String × List Posting) (rest : InvertedIndex)
    (t : String) :
    postingsOf (e :: rest) t = if e.1 == t then e.2 else postingsOf rest t := by
  by_cases h : (e.1 == t) = true
  · simp [postingsOf, findOne, List.find?, h]
  · have hb : (e.1 == t) = false := by simpa using h
    simp [postingsOf, findOne, List.find?, hb]

theorem postingsOf_dappend_self (idx : InvertedIndex) (t : String) (p : Posting) :
    postingsOf (IndexGen.dappend idx t p) t = postingsOf idx t ++ [p] := by
  induction idx with
  | nil =>
      rw [show IndexGen.dappend [] t p = [(t, [p])] from rfl, postingsOf_cons]
      simp [postingsOf, findOne, List.find?]
  | cons e rest ih =>
      rw [show IndexGen.dappend (e :: rest) t p
          = if e.1 == t then (e.1, e.2 ++ [p]) :: rest
            else e :: IndexGen.dappend rest t p from rfl]
      by_cases h : (e.1 == t) = true
      · rw [if_pos h, postingsOf_cons, postingsOf_cons, if_pos h, if_pos h]
      · have hb : ¬ ((e.1 == t) = true) := h
        rw [if_neg hb, postingsOf_cons, postingsOf_cons, if_neg hb, if_neg hb, ih]

theorem postingsOf_dappend_ne (idx : InvertedIndex) (t t' : String) (p : Posting)
    (hne : t' ≠ t) :
    postingsOf (IndexGen.dappend idx t p) t' = postingsOf idx t' := by
  have htb : ¬ ((t == t') = true) := by
    simp only [beq_iff_eq]
    exact fun h => hne h.symm
  induction idx with
  | nil =>
      rw [show IndexGen.dappend [] t p = [(t, [p])] from rfl, postingsOf_cons]
      rw [if_neg htb]
  | cons e rest ih =>
      rw [show IndexGen.dappend (e :: rest) t p
          = if e.1 == t then (e.1, e.2 ++ [p]) :: rest
            else e :: IndexGen.dappend rest t p from rfl]
      by_cases h : (e.1 == t) = true
      · have hb : ¬ ((e.1 == t') = true) := by
          simp only [beq_iff_eq]
          exact fun hh => hne (hh.symm.trans (by simpa using h))
        rw [if_pos h, postingsOf_cons, postingsOf_cons, if_neg hb, if_neg hb]
      · rw [if_neg h, postingsOf_cons, postingsOf_cons, ih]

theorem postingsOf_buildStepDoc_foldl_self (m : List (List Rat))
    (doc_ids : List String) (ti : Nat) (term : String) (ds : List Nat)
    (idx0 : InvertedIndex) :
    postingsOf (ds.foldl (IndexGen.buildStepDoc m doc_ids ti term) idx0) term
      = postingsOf idx0 term
        ++ (ds.filter (fun di => 0 < (m.getD di []).getD ti 0)).map
            (fun di => { document_id := doc_ids.getD di "",
                         tfidf_score := (m.getD di []).getD ti 0 }) := by
  induction ds generalizing idx0 with
  | nil => simp
  | cons d ds ih =>
      rw [List.foldl_cons, ih]
      by_cases h : (0 : Rat) < (m.getD d []).getD ti 0
      · have hstep : IndexGen.buildStepDoc m doc_ids ti term idx0 d
            = IndexGen.dappend idx0 term
                { document_id := doc_ids.getD d "",
                  tfidf_score := (m.getD d []).getD ti 0 } := by
          simp only [IndexGen.buildStepDoc]
          rw [if_pos h]
        rw [hstep, postingsOf_dappend_self,
          List.filter_cons_of_pos (by simpa using h), List.map_cons,
          List.append_assoc, List.singleton_append]
      · have hstep : IndexGen.buildStepDoc m doc_ids ti term idx0 d = idx0 := by
          simp only [IndexGen.buildStepDoc]
          rw [if_neg h]
        rw [hstep, List.filter_cons_of_neg (by simpa using h)]

theorem postingsOf_buildStepDoc_foldl_ne (m : List (List Rat))
    (doc_ids : List String) (ti : Nat) (term t : String) (hne : t ≠ term)
    (ds : List Nat) (idx0 : InvertedIndex) :
    postingsOf (ds.foldl (IndexGen.buildStepDoc m doc_ids ti term) idx0) t
      = postingsOf idx0 t := by
  induction ds generalizing idx0 with
  | nil => rfl
  | cons d ds ih =>
      rw [List.foldl_cons, ih]
      by_cases h : (0 : Rat) < (m.getD d []).getD ti 0
      · have hstep : IndexGen.buildStepDoc m doc_ids ti term idx0 d
            = IndexGen.dappend idx0 term
                { document_id := doc_ids.getD d "",
                  tfidf_score := (m.getD d []).getD ti 0 } := by
          simp only [IndexGen.buildStepDoc]
          rw [if_pos h]
        rw [hstep]
        exact postingsOf_dappend_ne _ _ _ _ hne
      · have hstep : IndexGen.buildStepDoc m doc_ids ti term idx0 d = idx0 := by
          simp only [IndexGen.buildStepDoc]
          rw [if_neg h]
        rw [hstep]

theorem postingsOf_buildStepTerm_self (m : List (List Rat))
    (doc_ids : List String) (te : Nat × String) (idx0 : InvertedIndex) :
    postingsOf (IndexGen.buildStepTerm m doc_ids idx0 te) te.2
      = postingsOf idx0 te.2
        ++ ((List.range m.length).filter (fun di => 0 < (m.getD di []).getD te.1 0)).map
            (fun di => { document_id := doc_ids.getD di "",
                         tfidf_score := (m.getD di []).getD te.1 0 }) :=
  postingsOf_buildStepDoc_foldl_self m doc_ids te.1 te.2 _ idx0

theorem postingsOf_buildStepTerm_ne (m : List (List Rat))
    (doc_ids : List String) (te : Nat × String) (idx0 : InvertedIndex)
    (t : String) (hne : t ≠ te.2) :
    postingsOf (IndexGen.buildStepTerm m doc_ids idx0 te) t = postingsOf idx0 t :=
  postingsOf_buildStepDoc_foldl_ne m doc_ids te.1 te.2 t hne _ idx0

theorem postingsOf_foldl_buildStepTerm_not_mem (m : List (List Rat))
    (doc_ids : List String) (L : List (Nat × String)) (idx0 : InvertedIndex)
    (t : String) (h : ∀ pr ∈ L, t ≠ pr.2) :
    postingsOf (L.foldl (IndexGen.buildStepTerm m doc_ids) idx0) t
      = postingsOf idx0 t := by
  induction L generalizing idx0 with
  | nil => rfl
  | cons pr L ih =>
      rw [List.foldl_cons, ih _ (fun q hq => h q (List.mem_cons_of_mem pr hq))]
      exact postingsOf_buildStepTerm_ne m doc_ids pr idx0 t (h pr (List.mem_cons_self _ _))

theorem postingsOf_build_enumFrom (m : List (List Rat)) (doc_ids : List String)
    (terms : List String) :
    terms.Nodup → ∀ (n : Nat) (idx0 : InvertedIndex) (ti : Fin terms.length),
    postingsOf ((terms.enumFrom n).foldl (IndexGen.buildStepTerm m doc_ids) idx0)
        (terms.get ti)
      = postingsOf idx0 (terms.get ti)
        ++ ((List.range m.length).filter
              (fun di => 0 < (m.getD di []).getD (n + ti.1) 0)).map
            (fun di => { document_id := doc_ids.getD di "",
                         tfidf_score := (m.getD di []).getD (n + ti.1) 0 }) := by
  induction terms with
  | nil =>
      intro _ n idx0 ti
      exact absurd ti.2 (by simp)
  | cons hd tl ih =>
      intro hnd n idx0 ti
      have hnotin : hd ∉ tl := (List.nodup_cons.mp hnd).1
      rw [List.enumFrom_cons, List.foldl_cons]
      rcases ti with ⟨i, hi⟩
      cases i with
      | zero =>
          have hne : ∀ pr ∈ tl.enumFrom (n + 1), (hd : String) ≠ pr.2 := by
            intro pr hpr
            have : pr.2 ∈ tl := by
              have := List.enumFrom_map_snd (n + 1) tl
              exact this ▸ List.mem_map_of_mem Prod.snd hpr
            exact fun heq => hnotin (heq ▸ this)
          show postingsOf _ hd = postingsOf idx0 hd ++ _
          rw [postingsOf_foldl_buildStepTerm_not_mem m doc_ids _ _ hd hne]
          simpa [Nat.add_zero] using postingsOf_buildStepTerm_self m doc_ids (n, hd) idx0
      | succ j =>
          have hj : j < tl.length := by simpa [Nat.succ_lt_succ_iff] using hi
          have hmem : tl.get ⟨j, hj⟩ ∈ tl := List.get_mem tl j hj
          have hne : tl.get ⟨j, hj⟩ ≠ hd := fun heq => hnotin (heq ▸ hmem)
          show postingsOf _ (tl.get ⟨j, hj⟩)
              = postingsOf idx0 (tl.get ⟨j, hj⟩) ++ _
          rw [ih (List.nodup_cons.mp hnd).2 (n + 1)
            (IndexGen.buildStepTerm m doc_ids idx0 (n, hd)) ⟨j, hj⟩]
          rw [postingsOf_buildStepTerm_ne m doc_ids (n, hd) idx0 _ hne]
          have harith : n + 1 + j = n + (j + 1) := by omega
          rw [harith]

/-- **C4.**  For every non-negative weight matrix, document-id list, and
(duplicate-free) term list, the built index's postings list for the term
at position `ti` holds exactly one posting `(doc_ids[di], weight)` per
document `di` whose weight for that term is nonzero, in document
iteration order; a term with no nonzero weights yields the empty
sequence (the filter is empty), and an unknown term yields the empty
sequence rather than an error. -/
theorem claim_C4_build_inverted_index (m : List (List Rat))
    (terms doc_ids : List String) (hnd : terms.Nodup)
    (hpos : ∀ row ∈ m, ∀ x ∈ row, 0 ≤ x) :
    (∀ ti : Fin terms.length,
      postingsOf (IndexGen.build_inverted_index m terms doc_ids) (terms.get ti)
        = ((List.range m.length).filter
            (fun di => (m.getD di []).getD ti.1 0 ≠ 0)).map
            (fun di => { document_id := doc_ids.getD di "",
                         tfidf_score := (m.getD di []).getD ti.1 0 }))
    ∧ (∀ t, t ∉ terms →
        postingsOf (IndexGen.build_inverted_index m terms doc_ids) t = []) := by
  constructor
  · intro ti
    have h := postingsOf_build_enumFrom m doc_ids terms hnd 0 [] ti
    rw [IndexGen.build_inverted_index, List.enum_eq_enumFrom, h,
      show postingsOf [] (terms.get ti) = [] from rfl, List.nil_append]
    simp only [Nat.zero_add]
    have hfilter : ∀ di ∈ List.range m.length,
        (decide ((0 : Rat) < (m.getD di []).getD ti.1 0))
          = (decide ((m.getD di []).getD ti.1 0 ≠ 0)) := by
      intro di hdi
      have hdim : di < m.length := List.mem_range.mp hdi
      have hrow : m.getD di [] ∈ m := by
        rw [List.getD_eq_getElem m [] hdim]
        exact List.getElem_mem hdim
      have hx : (0 : Rat) ≤ (m.getD di []).getD ti.1 0 := by
        by_cases hti : ti.1 < (m.getD di []).length
        · rw [List.getD_eq_getElem _ 0 hti]
          exact hpos _ hrow _ (List.getElem_mem hti)
        · rw [List.getD_eq_default _ 0 (Nat.le_of_not_lt hti)]
      congr 1
      rw [eq_iff_iff]
      constructor
      · exact fun hlt => (ne_of_lt hlt).symm
      · exact fun hne => lt_of_le_of_ne hx (Ne.symm hne)
    rw [List.filter_congr hfilter]
  · intro t ht
    have hne : ∀ pr ∈ terms.enum, t ≠ pr.2 := by
      intro pr hpr
      have : pr.2 ∈ terms := by
        have := List.enumFrom_map_snd 0 terms
        exact this ▸ List.mem_map_of_mem Prod.snd hpr
      exact fun heq => ht (heq ▸ this)
    rw [IndexGen.build_inverted_index,
      postingsOf_foldl_buildStepTerm_not_mem m doc_ids _ _ t hne]
    rfl

/-- **C4** witness: the theorem applied to a concrete 2×2 weight matrix;
the postings list of the second term holds exactly the one document with
nonzero weight, and an unknown term yields `[]`. -/
theorem claim_C4_build_inverted_index_witness :
    (["x", "y"] : List String).Nodup
    ∧ (∀ row ∈ [[(1 : Rat), 0], [0, 2]], ∀ x ∈ row, 0 ≤ x)
    ∧ postingsOf (IndexGen.build_inverted_index [[(1 : Rat), 0], [0, 2]]
        ["x", "y"] ["d0", "d1"]) "y"
      = [{ document_id := "d1", tfidf_score := 2 }]
    ∧ postingsOf (IndexGen.build_inverted_index [[(1 : Rat), 0], [0, 2]]
        ["x", "y"] ["d0", "d1"]) "unknown" = [] := by
  have h := claim_C4_build_inverted_index [[(1 : Rat), 0], [0, 2]] ["x", "y"]
    ["d0", "d1"] (by decide) (by decide)
  refine ⟨by decide, by decide, ?_, h.2 "unknown" (by decide)⟩
  have h1 := h.1 ⟨1, by decide⟩
  rw [show (["x", "y"] : List String).get ⟨1, by decide⟩ = "y" from rfl] at h1
  rw [h1]
  decide

/-! ## Index / embedding-store consistency -/

theorem store_keys (m : List (List Rat)) (doc_ids : List String) :
    (IndexGen.store_document_embeddings m doc_ids).map Prod.fst = doc_ids := by
  unfold IndexGen.store_document_embeddings
  rw [List.map_map]
  rw [show (Prod.fst ∘ fun de : Nat × String => (de.2, m.getD de.1 [])) = Prod.snd
    from rfl]
  rw [List.enum_eq_enumFrom, List.enumFrom_map_snd]

theorem findOne_isSome_iff {β : Type} (coll : List (String × β)) (k : String) :
    (findOne coll k).isSome ↔ k ∈ coll.map Prod.fst := by
  unfold findOne
  rw [List.find?_isSome]
  constructor
  · rintro ⟨x, hx, hbeq⟩
    exact (by simpa using hbeq : x.1 = k) ▸ List.mem_map_of_mem Prod.fst hx
  · intro hk
    obtain ⟨x, hx, rfl⟩ := List.mem_map.mp hk
    exact ⟨x, hx, by simp⟩

/-- **C5.**  After a build pass over the same weight matrix and
document-id list (as `generate_index_and_store_embeddings` performs),
every document identifier appearing in any posting of any term of the
built inverted index has an entry in the embedding store. -/
theorem claim_C5_index_embedding_consistency (m : List (List Rat))
    (terms doc_ids : List String) (hnd : terms.Nodup)
    (hlen : doc_ids.length = m.length) :
    ∀ t : String, ∀ p ∈ postingsOf (IndexGen.build_inverted_index m terms doc_ids) t,
      (findOne (IndexGen.store_document_embeddings m doc_ids) p.document_id).isSome := by
  intro t p hp
  rw [findOne_isSome_iff, store_keys]
  by_cases ht : t ∈ terms
  · obtain ⟨ti, hti⟩ := List.mem_iff_get.mp ht
    rw [← hti] at hp
    have h := postingsOf_build_enumFrom m doc_ids terms hnd 0 [] ti
    rw [IndexGen.build_inverted_index, List.enum_eq_enumFrom, h,
      show postingsOf [] (terms.get ti) = [] from rfl, List.nil_append] at hp
    obtain ⟨di, hdi, rfl⟩ := List.mem_map.mp hp
    have hdim : di < m.length := List.mem_range.mp (List.mem_of_mem_filter hdi)
    show doc_ids.getD di "" ∈ doc_ids
    rw [List.getD_eq_getElem doc_ids "" (by omega : di < doc_ids.length)]
    exact List.getElem_mem _
  · have h2 : ∀ pr ∈ terms.enum, t ≠ pr.2 := by
      intro pr hpr
      have : pr.2 ∈ terms := by
        have := List.enumFrom_map_snd 0 terms
        exact this ▸ List.mem_map_of_mem Prod.snd hpr
      exact fun heq => ht (heq ▸ this)
    rw [IndexGen.build_inverted_index,
      postingsOf_foldl_buildStepTerm_not_mem m doc_ids _ _ t h2] at hp
    exact absurd hp (List.not_mem_nil p)

/-- **C5** witness: the theorem applied to the concrete 2×2 build; the
posting for document `"d1"` under term `"y"` has an embedding entry. -/
theorem claim_C5_index_embedding_consistency_witness :
    (["x", "y"] : List String).Nodup
    ∧ (["d0", "d1"] : List String).length = [[(1 : Rat), 0], [0, 2]].length
    ∧ (findOne (IndexGen.store_document_embeddings [[(1 : Rat), 0], [0, 2]] ["d0", "d1"])
        (Posting.document_id { document_id := "d1", tfidf_score := 2 })).isSome :=
  ⟨by decide, by decide,
    claim_C5_index_embedding_consistency [[(1 : Rat), 0], [0, 2]] ["x", "y"]
      ["d0", "d1"] (by decide) (by decide) "y" _ (by decide)⟩
